import Mathlib

/-!
Verification of the xirvik-tools core against its specification.

This file gives a shallow embedding of the two subsystems the claims are
about:

* the torrent piece streamer and verifier of src/xirvik/util.py
  (functions chunks, get_torrent_pieces, verify_torrent_contents), and
* the mirror engine of src/xirvik/sftp.py (the per-file transfer decision,
  the resume read-window computation, the transfer counter, the directory
  cache handling and the recursive remote lister).

File contents are byte lists; the local filesystem is a finite map from
path strings to contents plus a set of directory paths.  The SHA-1 digest
is taken from an external library by the source, so the verifier here is
parametric in the digest function; concrete instances use a simple
executable stand-in digest.  Loops whose iteration count is bounded by the
input length are written with an explicit fuel argument initialised to a
sufficient bound, so that every definition evaluates by kernel reduction.
-/

namespace XirvikTools

/-- Whether a path string is absolute: its first character is a slash. -/
def strHeadIsSlash (s : String) : Bool :=
  match s.data with
  | [] => false
  | c :: _ => c == '/'

/-- Whether a path string already ends in a slash. -/
def strLastIsSlash (s : String) : Bool :=
  match s.data.getLast? with
  | some c => c == '/'
  | none => false

/-- POSIX os.path.join for two components, as used throughout the source:
an absolute second component replaces the first, otherwise the parts are
joined with a single slash. -/
def pathJoin (a b : String) : String :=
  if strHeadIsSlash b then b
  else if a = "" then b
  else if strLastIsSlash a then a ++ b
  else a ++ "/" ++ b

/-- The local filesystem visible to the verifier: regular files with their
contents, and the set of existing directories. -/
structure FS where
  files : List (String × List Nat)
  dirs : List String
deriving DecidableEq

/-- Reading a file (also its stat size, via List.length): some content when
the path names a regular file, none when opening or sizing it fails. -/
def FS.read (fs : FS) (p : String) : Option (List Nat) :=
  (fs.files.find? (fun e => e.1 == p)).map (fun e => e.2)

/-- os.path.isdir on the modelled filesystem. -/
def FS.isDir (fs : FS) (p : String) : Bool := fs.dirs.contains p

/-- Embeds the private chunking helper of util.py (function named with a
leading underscore there): successive slices of length n of a list.  The
fuel argument bounds the number of slices; it is initialised to the list
length, which suffices because each slice consumes at least one element
(the source is only ever called with n = 20, the SHA-1 digest size). -/
def chunksAux : Nat → List Nat → Nat → List (List Nat)
  | 0, _, _ => []
  | fuel + 1, l, n => if n = 0 ∨ l = [] then [] else l.take n :: chunksAux fuel (l.drop n) n

/-- The 20-byte digest chunking used on the pieces byte string. -/
def chunksList (l : List Nat) (n : Nat) : List (List Nat) :=
  chunksAux l.length l n

/-- One event of the piece-streaming generator of util.py: a yielded byte
buffer, the None yielded on a stat or open failure, or the generator dying
with an uncaught Python exception if it were resumed past that point. -/
inductive PieceYield where
  | buf (b : List Nat)
  | missing
  | pyCrash
deriving DecidableEq

/-- The inner while-loop of the streamer's large-file branch: repeatedly
read p_delta bytes from the open file, append to the accumulation buffer,
yield the buffer when p_delta reaches zero, and break on a short or empty
read.  rest is the unread tail of the file; the result is the list of
buffers yielded, the final accumulation buffer and the final p_delta.
The fuel bounds the iteration count; every iteration that recurses consumes
at least one byte, so fuel = rest.length + 1 is sufficient. -/
def readLoopAux (pl : Nat) : Nat → List Nat → List Nat → Nat → List (List Nat) × List Nat × Nat
  | 0, _, buf, pd => ([], buf, pd)
  | fuel + 1, rest, buf, pd =>
    let tmp := rest.take pd
    if tmp = [] then ([], buf, pd)
    else
      let pd1 := pd - tmp.length
      let buf1 := buf ++ tmp
      if tmp.length < pd1 then ([], buf1, pd1)
      else if pd1 = 0 then
        let r := readLoopAux pl fuel (rest.drop tmp.length) [] pl
        (buf1 :: r.1, r.2.1, r.2.2)
      else readLoopAux pl fuel (rest.drop tmp.length) buf1 pd1

/-- The large-file read loop with sufficient fuel. -/
def readLoop (pl : Nat) (rest buf : List Nat) (pd : Nat) : List (List Nat) × List Nat × Nat :=
  readLoopAux pl (rest.length + 1) rest buf pd

/-- The body of the piece-streaming generator of util.py, over the list of
per-file read results (some content when stat and open succeed, none when
they fail).  It carries the buffer and p_delta across files.  On a stat
failure the generator yields None; if it were resumed it would fall into
the size test with the stale size of the previous file (an unbound variable
on the first file, hence a crash), where the small-file branch would crash
on the unguarded open and the large-file branch would catch the IOError and
yield None once more before moving on.  The second component of the state
is the size variable left over from the previous loop iteration. -/
def genGo (pl : Nat) : List (Option (List Nat)) → Option Nat → List Nat → Nat → List PieceYield
  | [], _, buf, _ => if buf = [] then [] else [.buf buf]
  | some c :: rest, _, buf, pd =>
    if c.length ≤ pl ∧ c.length < pd then
      let pd0 := pd - c.length
      genGo pl rest (some c.length) (buf ++ c) (if pd0 = 0 then pl else pd0)
    else
      let r := readLoop pl c buf pd
      r.1.map .buf ++ genGo pl rest (some c.length) r.2.1 r.2.2
  | none :: rest, lastSize, buf, pd =>
    .missing ::
      (match lastSize with
       | none => [.pyCrash]
       | some s =>
         if s ≤ pl ∧ s < pd then [.pyCrash]
         else .missing :: genGo pl rest (some s) buf pd)

/-- The piece-streaming generator of util.py: resolve each listed filename
against the base path and stream the accumulated piece buffers. -/
def getTorrentPieces (fs : FS) (filenames : List String) (basepath : String) (pl : Nat) :
    List PieceYield :=
  genGo pl (filenames.map (fun nm => fs.read (pathJoin basepath nm))) none [] pl

/-- One file entry of the metadata's files list; the length field is
decoded but never consulted by the verifier (it stats the files instead). -/
structure FileEntry where
  path : List String
  length : Nat
deriving DecidableEq

/-- The decoded torrent info dictionary as consumed by the verifier:
name, piece length, the flat pieces digest bytes, and the optional files
list (absent for a single-file torrent). -/
structure TorrentInfo where
  name : String
  pieceLength : Nat
  pieces : List Nat
  files : Option (List FileEntry)
deriving DecidableEq

/-- The observable failures of verify_torrent_contents: the IOError raised
for an invalid data path, the two VerificationError messages (one when
hashing a None piece raises TypeError, one on a digest mismatch), and an
uncaught Python exception escaping the generator. -/
inductive VErr where
  | ioErrorInvalidPath
  | verificationUnableToHash
  | verificationHashMismatch
  | pyUncaught
deriving DecidableEq

/-- Outcome of the verifier's comparison loop, instrumented with the number
of completed iterations: the zip ran to the end of either list, or it
stopped at index i on a None piece, a digest mismatch, or a generator
crash.  The source's exceptions do not carry this index; it records at
which zip iteration the raise occurs. -/
inductive LoopResult where
  | passed
  | failMissing (i : Nat)
  | failMismatch (i : Nat)
  | failCrash (i : Nat)
deriving DecidableEq

/-- The verifier's comparison loop over the zip of stored digest chunks
with streamed pieces, parametric in the digest function: hashing a None
piece raises the unable-to-hash error, a failed constant-time comparison
raises the mismatch error, and exhausting either list ends the loop with
success. -/
def verifyLoop (digest : List Nat → List Nat) :
    List (List Nat) → List PieceYield → Nat → LoopResult
  | [], _, _ => .passed
  | _ :: _, [], _ => .passed
  | h :: hs, y :: ys, i =>
    match y with
    | .missing => .failMissing i
    | .pyCrash => .failCrash i
    | .buf b => if digest b = h then verifyLoop digest hs ys (i + 1) else .failMismatch i

/-- The file list and base path the verifier hands to the streamer: for a
multi-file torrent the slash-joined path segments resolved under
rootPath/name; for a single-file torrent (no files key) the single already
joined path rootPath/name resolved against rootPath again. -/
def torrentFilenamesBase (t : TorrentInfo) (origPath : String) : List String × String :=
  let path := pathJoin origPath t.name
  match t.files with
  | some fl => (fl.map (fun fe => String.intercalate "/" fe.path), path)
  | none => ([path], origPath)

/-- The stream of piece yields the verifier consumes. -/
def torrentYields (fs : FS) (t : TorrentInfo) (origPath : String) : List PieceYield :=
  let fb := torrentFilenamesBase t origPath
  getTorrentPieces fs fb.1 fb.2 t.pieceLength

/-- The instrumented comparison-loop outcome of a verification call. -/
def verifyCore (digest : List Nat → List Nat) (fs : FS) (t : TorrentInfo) (origPath : String) :
    LoopResult :=
  verifyLoop digest (chunksList t.pieces 20) (torrentYields fs t origPath) 0

/-- verify_torrent_contents of util.py, from the decoded metadata onward:
check that rootPath/name is a directory or an openable file, then run the
comparison loop; its exceptions are erased to the error kind the source
raises (the source messages carry no piece index). -/
def verify (digest : List Nat → List Nat) (fs : FS) (t : TorrentInfo) (origPath : String) :
    Except VErr Unit :=
  let path := pathJoin origPath t.name
  if !fs.isDir path && !(fs.read path).isSome then .error .ioErrorInvalidPath
  else
    match verifyCore digest fs t origPath with
    | .passed => .ok ()
    | .failMissing _ => .error .verificationUnableToHash
    | .failMismatch _ => .error .verificationHashMismatch
    | .failCrash _ => .error .pyUncaught

/-- A simple executable 20-byte digest standing in for the external SHA-1
implementation in concrete instances (the verifier itself is parametric in
the digest function). -/
def sumDigest (l : List Nat) : List Nat :=
  (l.foldl (fun a b => a + b) 0 % 256) :: List.replicate 19 0

/-- The resume branch of SFTPClient.mirror in sftp.py: for a remote file of
size remoteSize resumed at offset resumeSeek, the list of (offset, length)
read windows handed to readv.  The source computes
n_reads = ceil((size - resume_seek) / MAX_PACKET_SIZE) - 1 and a final
window of length (size - resume_seek) mod MAX_PACKET_SIZE; the float
division is exact at these magnitudes, so it is rendered as exact ceiling
division on Nat (the claims instantiate resumeSeek < remoteSize, where the
Python and Nat arithmetic agree). -/
def readTuples (maxPacket resumeSeek remoteSize : Nat) : List (Nat × Nat) :=
  let nReads := (remoteSize - resumeSeek + maxPacket - 1) / maxPacket - 1
  let nLeft := (remoteSize - resumeSeek) % maxPacket
  (List.range nReads).map (fun i => (resumeSeek + i * maxPacket, maxPacket))
    ++ [(resumeSeek + nReads * maxPacket, nLeft)]

/-- Total number of bytes requested by the resume read windows. -/
def windowLengthSum (maxPacket resumeSeek remoteSize : Nat) : Nat :=
  ((readTuples maxPacket resumeSeek remoteSize).map (fun t => t.2)).sum

/-- The per-file transfer decision of SFTPClient.mirror. -/
inductive Decision where
  | skip
  | fresh
  | resumeAt (offset : Nat)
deriving DecidableEq

/-- The sizing decision mirror makes for one enumerated file, from the
local destination's stat result (none when opening it fails) and the remote
size: equal sizes skip the transfer; on a size difference the source sets
resume_seek to the local size and jumps into the transfer block, which
resumes when resume_seek is truthy (nonzero) and resume is enabled and
downloads afresh otherwise; a missing local file leaves resume_seek unset
and downloads afresh. -/
def mirrorDecision (localSize? : Option Nat) (remoteSize : Nat) (resume : Bool) : Decision :=
  match localSize? with
  | none => .fresh
  | some ls =>
    if ls = remoteSize then .skip
    else if ls ≠ 0 ∧ resume then .resumeAt ls
    else .fresh

/-- The sizing data of one enumerated remote file during a mirror run. -/
structure MFile where
  localSize? : Option Nat
  remoteSize : Nat
deriving DecidableEq

/-- One iteration of mirror's file loop acting on the transferred-files
counter n, for a fault-free transfer.  The source's resume branch reuses
the name n for its window loop variable (for n in range(n_reads)), so after
a resumed transfer with at least one full window the counter has been
clobbered to n_reads - 1 before the final n += 1. -/
def runStep (maxPacket : Nat) (resume : Bool) (n : Nat) (f : MFile) : Nat :=
  match mirrorDecision f.localSize? f.remoteSize resume with
  | .skip => n
  | .fresh => n + 1
  | .resumeAt s =>
    let nReads := (f.remoteSize - s + maxPacket - 1) / maxPacket - 1
    (if nReads = 0 then n else nReads - 1) + 1

/-- The value a fault-free mirror run returns for the given enumerated
files. -/
def mirrorCount (maxPacket : Nat) (resume : Bool) (files : List MFile) : Nat :=
  files.foldl (runStep maxPacket resume) 0

/-- The number of files whose bytes are actually transferred in that run:
those not skipped as already complete. -/
def transferredCount (resume : Bool) (files : List MFile) : Nat :=
  (files.filter (fun f => mirrorDecision f.localSize? f.remoteSize resume ≠ Decision.skip)).length

/-- The directory-creation handling of one mirror run over the successive
destination directory paths, threading the _dircache list the source keeps
on the class: a makedirs call is attempted exactly when the path is not yet
in the cache, and the path is then appended.  mirror never resets the
cache; composing two runs therefore hands the first run's final cache to
the second.  Returns the list of attempted paths in order and the final
cache. -/
def dirSteps (cache : List String) : List String → List String × List String
  | [] => ([], cache)
  | p :: rest =>
    if p ∈ cache then dirSteps cache rest
    else
      let r := dirSteps (cache ++ [p]) rest
      (p :: r.1, r.2)

/-- The remote stat attributes the lister and mirror consult. -/
structure RAttr where
  mode : Nat
  size : Nat
  atime : Nat
  mtime : Nat
deriving DecidableEq

/-- A remote filesystem entry: a regular file or a directory with named
children, each carrying its stat attributes. -/
inductive RNode where
  | rfile (a : RAttr)
  | rdir (a : RAttr) (children : List (String × RNode))

/-- The stat attributes of a remote entry. -/
def RNode.attrs : RNode → RAttr
  | .rfile a => a
  | .rdir a _ => a

/-- SFTPClient.listdir_attr_recurse with raise_exceptions left at its
default False: an entry is treated as a directory exactly when all three
owner permission bits of its mode are set, in which case it is descended
into and never yielded; listing a regular file that carries mode bits 0o700
raises IOError remotely, which is caught and skipped.  All other entries
are yielded with their joined path.  The fuel bounds the recursion depth
and is harmless for any fuel at least the tree height. -/
def listRecurse : Nat → String → List (String × RNode) → List (String × RAttr)
  | 0, _, _ => []
  | fuel + 1, path, entries =>
    entries.flatMap fun e =>
      if (RNode.attrs e.2).mode &&& 0o700 == 0o700 then
        match e.2 with
        | .rfile _ => []
        | .rdir _ children => listRecurse fuel (pathJoin path e.1) children
      else [(pathJoin path e.1, RNode.attrs e.2)]

/-- The guard at the top of mirror's file loop that skips any enumerated
entry whose owner permission bits are all set. -/
def mirrorSkips (mode : Nat) : Bool := mode &&& 0o700 == 0o700

/-- Mathematical chunking of a byte sequence into pieces of length pl:
the list of complete pieces and the (possibly empty) remainder shorter than
pl.  The fuel bounds the number of chunks; fuel above s.length / pl
suffices. -/
def splitChunksAux : Nat → Nat → List Nat → List (List Nat) × List Nat
  | 0, _, s => ([], s)
  | fuel + 1, pl, s =>
    if pl = 0 ∨ s.length < pl then ([], s)
    else
      let r := splitChunksAux fuel pl (s.drop pl)
      (s.take pl :: r.1, r.2)

/-- Chunking with sufficient fuel. -/
def splitChunks (pl : Nat) (s : List Nat) : List (List Nat) × List Nat :=
  splitChunksAux (s.length + 1) pl s

/-- All pieces of a byte sequence: the complete pieces followed by the
remainder when it is nonempty. -/
def allPieces (pl : Nat) (s : List Nat) : List (List Nat) :=
  (splitChunks pl s).1 ++ (if (splitChunks pl s).2 = [] then [] else [(splitChunks pl s).2])

theorem splitChunksAux_irrel :
    ∀ (f g pl : Nat) (s : List Nat), s.length < f → s.length < g →
      splitChunksAux f pl s = splitChunksAux g pl s := by
  intro f
  induction f with
  | zero => intro g pl s hf; exact absurd hf (Nat.not_lt_zero _)
  | succ f ih =>
    intro g pl s hf hg
    match g, hg with
    | g + 1, hg =>
      simp only [splitChunksAux]
      by_cases hc : pl = 0 ∨ s.length < pl
      · simp [hc]
      · simp only [hc, if_false]
        push_neg at hc
        have hd : (s.drop pl).length < f := by
          have := List.length_drop pl s
          omega
        have hd2 : (s.drop pl).length < g := by
          have := List.length_drop pl s
          omega
        rw [ih g pl (s.drop pl) hd hd2]

theorem splitChunks_eq (pl : Nat) (s : List Nat) :
    splitChunks pl s =
      if pl = 0 ∨ s.length < pl then ([], s)
      else (s.take pl :: (splitChunks pl (s.drop pl)).1, (splitChunks pl (s.drop pl)).2) := by
  unfold splitChunks
  conv_lhs => rw [splitChunksAux]
  by_cases hc : pl = 0 ∨ s.length < pl
  · simp [hc]
  · simp only [hc, if_false]
    push_neg at hc
    have hd : (s.drop pl).length < s.length := by
      have := List.length_drop pl s
      omega
    rw [splitChunksAux_irrel s.length ((s.drop pl).length + 1) pl (s.drop pl) hd (Nat.lt_succ_self _)]

theorem splitChunks_full_length :
    ∀ (n : Nat) (pl : Nat) (s : List Nat), s.length ≤ n →
      ∀ b ∈ (splitChunks pl s).1, b.length = pl := by
  intro n
  induction n with
  | zero =>
    intro pl s hs b hb
    have hz : s = [] := List.eq_nil_of_length_eq_zero (Nat.le_zero.mp hs)
    subst hz
    rw [splitChunks_eq] at hb
    by_cases hc : pl = 0 ∨ ([] : List Nat).length < pl
    · rw [if_pos hc] at hb; simp at hb
    · push_neg at hc; simp at hc
  | succ n ih =>
    intro pl s hs b hb
    rw [splitChunks_eq] at hb
    by_cases hc : pl = 0 ∨ s.length < pl
    · rw [if_pos hc] at hb; simp at hb
    · rw [if_neg hc] at hb
      push_neg at hc
      rcases List.mem_cons.mp hb with h | h
      · subst h
        exact List.length_take_of_le hc.2
      · have hd : (s.drop pl).length ≤ n := by
          have := List.length_drop pl s
          omega
        exact ih pl (s.drop pl) hd b h

theorem splitChunks_rem_short (pl : Nat) (hpl : 1 ≤ pl) :
    ∀ (n : Nat) (s : List Nat), s.length ≤ n → (splitChunks pl s).2.length < pl := by
  intro n
  induction n with
  | zero =>
    intro s hs
    have hz : s = [] := List.eq_nil_of_length_eq_zero (Nat.le_zero.mp hs)
    subst hz
    rw [splitChunks_eq, if_pos (by simp; omega)]
    simpa using hpl
  | succ n ih =>
    intro s hs
    rw [splitChunks_eq]
    by_cases hc : pl = 0 ∨ s.length < pl
    · rw [if_pos hc]
      rcases hc with h | h
      · omega
      · simpa using h
    · rw [if_neg hc]
      have hd : (s.drop pl).length ≤ n := by
        push_neg at hc
        have := List.length_drop pl s
        omega
      exact ih (s.drop pl) hd

theorem splitChunks_join :
    ∀ (n : Nat) (pl : Nat) (s : List Nat), s.length ≤ n →
      (splitChunks pl s).1.flatten ++ (splitChunks pl s).2 = s := by
  intro n
  induction n with
  | zero =>
    intro pl s hs
    have hz : s = [] := List.eq_nil_of_length_eq_zero (Nat.le_zero.mp hs)
    subst hz
    rw [splitChunks_eq]
    by_cases hc : pl = 0 ∨ ([] : List Nat).length < pl
    · rw [if_pos hc]; simp
    · rw [if_neg hc]
      push_neg at hc
      simp at hc
  | succ n ih =>
    intro pl s hs
    rw [splitChunks_eq]
    by_cases hc : pl = 0 ∨ s.length < pl
    · rw [if_pos hc]; simp
    · rw [if_neg hc]
      push_neg at hc
      simp only [List.flatten_cons, List.append_assoc]
      have hd : (s.drop pl).length ≤ n := by
        have := List.length_drop pl s
        omega
      rw [ih pl (s.drop pl) hd]
      exact List.take_append_drop pl s

theorem splitChunks_append :
    ∀ (n : Nat) (pl : Nat) (s t : List Nat), s.length ≤ n →
      splitChunks pl (s ++ t) =
        ((splitChunks pl s).1 ++ (splitChunks pl ((splitChunks pl s).2 ++ t)).1,
          (splitChunks pl ((splitChunks pl s).2 ++ t)).2) := by
  intro n
  induction n with
  | zero =>
    intro pl s t hs
    have hz : s = [] := List.eq_nil_of_length_eq_zero (Nat.le_zero.mp hs)
    subst hz
    have h2 : splitChunks pl [] = ([], []) := by
      rw [splitChunks_eq, if_pos (by simp; omega)]
    simp [h2]
  | succ n ih =>
    intro pl s t hs
    by_cases hc : pl = 0 ∨ s.length < pl
    · have h1 : splitChunks pl s = ([], s) := by
        rw [splitChunks_eq, if_pos hc]
      simp [h1]
    · have h1 : splitChunks pl s =
          (s.take pl :: (splitChunks pl (s.drop pl)).1, (splitChunks pl (s.drop pl)).2) := by
        rw [splitChunks_eq, if_neg hc]
      push_neg at hc
      have hlen : ¬(pl = 0 ∨ (s ++ t).length < pl) := by
        push_neg
        constructor
        · omega
        · rw [List.length_append]; omega
      have h2 : splitChunks pl (s ++ t) =
          ((s ++ t).take pl :: (splitChunks pl ((s ++ t).drop pl)).1,
            (splitChunks pl ((s ++ t).drop pl)).2) := by
        rw [splitChunks_eq, if_neg hlen]
      have htake : (s ++ t).take pl = s.take pl := List.take_append_of_le_length hc.2
      have hdrop : (s ++ t).drop pl = s.drop pl ++ t := List.drop_append_of_le_length hc.2
      have hd : (s.drop pl).length ≤ n := by
        have := List.length_drop pl s
        omega
      rw [h2, htake, hdrop, ih pl (s.drop pl) t hd, h1]
      simp

theorem readLoopAux_spec (pl : Nat) :
    ∀ (fuel : Nat) (rest buf : List Nat) (pd : Nat),
      rest.length < fuel → 1 ≤ pd → buf.length + pd = pl →
      readLoopAux pl fuel rest buf pd =
        ((splitChunks pl (buf ++ rest)).1, (splitChunks pl (buf ++ rest)).2,
          pl - (splitChunks pl (buf ++ rest)).2.length) := by
  intro fuel
  induction fuel with
  | zero => intro rest buf pd hf; exact absurd hf (Nat.not_lt_zero _)
  | succ fuel ih =>
    intro rest buf pd hf hpd hinv
    simp only [readLoopAux]
    by_cases htmp : rest.take pd = []
    · rw [if_pos htmp]
      have hrest : rest = [] := by
        rcases List.take_eq_nil_iff.mp htmp with h | h
        · omega
        · exact h
      subst hrest
      have hcond : pl = 0 ∨ (buf ++ ([] : List Nat)).length < pl := by
        right; simp; omega
      rw [splitChunks_eq, if_pos hcond]
      simp
      omega
    · rw [if_neg htmp]
      have hrne : rest ≠ [] := by
        intro h; subst h; simp at htmp
      have htlen : (rest.take pd).length = min pd rest.length := List.length_take _ _
      have htpos : 1 ≤ (rest.take pd).length := by
        rw [htlen]
        have : 1 ≤ rest.length := List.length_pos.mpr hrne
        omega
      by_cases hshort : (rest.take pd).length < pd - (rest.take pd).length
      · rw [if_pos hshort]
        have hrlt : rest.length < pd := by
          by_contra hge
          push_neg at hge
          rw [htlen, Nat.min_eq_left hge] at hshort
          omega
        have htr : rest.take pd = rest := List.take_of_length_le (Nat.le_of_lt hrlt)
        rw [htr]
        have hcond : pl = 0 ∨ (buf ++ rest).length < pl := by
          right; rw [List.length_append]; omega
        rw [splitChunks_eq, if_pos hcond]
        simp
        rw [htr] at htlen
        omega
      · rw [if_neg hshort]
        by_cases hzero : pd - (rest.take pd).length = 0
        · rw [if_pos hzero]
          have htpd : (rest.take pd).length = pd := by
            rw [htlen]; rw [htlen] at hzero; omega
          have hrge : pd ≤ rest.length := by
            rw [htlen] at htpd; omega
          have hd : (rest.drop (rest.take pd).length).length < fuel := by
            rw [htpd]
            have := List.length_drop pd rest
            omega
          have hpl1 : 1 ≤ pl := by omega
          rw [ih (rest.drop (rest.take pd).length) [] pl hd hpl1 (by simp)]
          simp only [List.nil_append]
          have hcond : ¬(pl = 0 ∨ (buf ++ rest).length < pl) := by
            push_neg
            constructor
            · omega
            · rw [List.length_append]; omega
          rw [splitChunks_eq pl (buf ++ rest), if_neg hcond]
          have htake : (buf ++ rest).take pl = buf ++ rest.take pd := by
            rw [List.take_append_eq_append_take, List.take_of_length_le (by omega : buf.length ≤ pl)]
            congr 1
            congr 1
            omega
          have hdrop : (buf ++ rest).drop pl = rest.drop pd := by
            rw [List.drop_append_eq_append_drop, List.drop_of_length_le (by omega : buf.length ≤ pl)]
            simp
            congr 1
            omega
          rw [htake, hdrop, htpd]
        · rw [if_neg hzero]
          have htlt : (rest.take pd).length < pd := by
            rw [htlen]; rw [htlen] at hzero; omega
          have hrlt : rest.length < pd := by
            rw [htlen] at htlt; omega
          have htr : rest.take pd = rest := List.take_of_length_le (Nat.le_of_lt hrlt)
          rw [htr]
          have hdropnil : rest.drop rest.length = [] := by
            simp
          rw [hdropnil]
          have hd : ([] : List Nat).length < fuel := by
            simp
            have : 1 ≤ rest.length := List.length_pos.mpr hrne
            omega
          have hinv2 : (buf ++ rest).length + (pd - rest.length) = pl := by
            rw [List.length_append]; omega
          rw [ih [] (buf ++ rest) (pd - rest.length) hd (by omega) hinv2]
          simp

/-- readLoop with sufficient fuel matches the chunking of the buffer
followed by the unread file tail. -/
theorem readLoop_spec (pl : Nat) (rest buf : List Nat) (pd : Nat)
    (hpd : 1 ≤ pd) (hinv : buf.length + pd = pl) :
    readLoop pl rest buf pd =
      ((splitChunks pl (buf ++ rest)).1, (splitChunks pl (buf ++ rest)).2,
        pl - (splitChunks pl (buf ++ rest)).2.length) :=
  readLoopAux_spec pl (rest.length + 1) rest buf pd (Nat.lt_succ_self _) hpd hinv

/-- The generator over present files yields exactly the pieces of the
concatenated contents prefixed by the carried buffer. -/
theorem genGo_spec (pl : Nat) :
    ∀ (cs : List (List Nat)) (lastSize : Option Nat) (buf : List Nat) (pd : Nat),
      1 ≤ pd → buf.length + pd = pl →
      genGo pl (cs.map some) lastSize buf pd =
        (allPieces pl (buf ++ cs.flatten)).map PieceYield.buf := by
  intro cs
  induction cs with
  | nil =>
    intro lastSize buf pd hpd hinv
    simp only [List.map_nil, genGo, List.flatten_nil, List.append_nil]
    have hcond : pl = 0 ∨ buf.length < pl := by omega
    unfold allPieces
    rw [splitChunks_eq, if_pos hcond]
    by_cases hb : buf = []
    · rw [if_pos hb, hb]
      simp
    · rw [if_neg hb]
      simp [hb]
  | cons c cs ih =>
    intro lastSize buf pd hpd hinv
    simp only [List.map_cons, genGo]
    have hflt : buf ++ (c :: cs).flatten = (buf ++ c) ++ cs.flatten := by
      rw [List.flatten_cons, List.append_assoc]
    by_cases hsmall : c.length ≤ pl ∧ c.length < pd
    · rw [if_pos hsmall]
      have hpd0 : ¬(pd - c.length = 0) := by omega
      rw [if_neg hpd0]
      have hinv2 : (buf ++ c).length + (pd - c.length) = pl := by
        rw [List.length_append]; omega
      rw [ih (some c.length) (buf ++ c) (pd - c.length) (by omega) hinv2, hflt]
    · rw [if_neg hsmall]
      have hpl1 : 1 ≤ pl := by omega
      rw [readLoop_spec pl c buf pd hpd hinv]
      have hrem : (splitChunks pl (buf ++ c)).2.length < pl :=
        splitChunks_rem_short pl hpl1 (buf ++ c).length (buf ++ c) (Nat.le_refl _)
      have hinv3 : (splitChunks pl (buf ++ c)).2.length + (pl - (splitChunks pl (buf ++ c)).2.length) = pl := by
        omega
      rw [ih (some c.length) (splitChunks pl (buf ++ c)).2 (pl - (splitChunks pl (buf ++ c)).2.length)
        (by omega) hinv3]
      rw [hflt]
      unfold allPieces
      rw [splitChunks_append (buf ++ c).length pl (buf ++ c) cs.flatten (Nat.le_refl _)]
      simp [List.map_append, List.append_assoc]

/-- Unfolding step for allPieces. -/
theorem allPieces_step (pl : Nat) (s : List Nat) (hpl : 1 ≤ pl) :
    allPieces pl s =
      if s.length < pl then (if s = [] then [] else [s])
      else s.take pl :: allPieces pl (s.drop pl) := by
  unfold allPieces
  by_cases hc : s.length < pl
  · rw [if_pos hc]
    have h1 : splitChunks pl s = ([], s) := by
      rw [splitChunks_eq, if_pos (Or.inr hc)]
    rw [h1]
    by_cases hs : s = [] <;> simp [hs]
  · rw [if_neg hc]
    have hcond : ¬(pl = 0 ∨ s.length < pl) := by
      push_neg
      exact ⟨by omega, by omega⟩
    have h1 : splitChunks pl s =
        (s.take pl :: (splitChunks pl (s.drop pl)).1, (splitChunks pl (s.drop pl)).2) := by
      rw [splitChunks_eq, if_neg hcond]
    rw [h1]
    simp

/-- Every complete piece and nothing dropped: all pieces except possibly
the last have length pl, and their concatenation restores the sequence. -/
theorem allPieces_join (pl : Nat) (s : List Nat) :
    (allPieces pl s).flatten = s ∨ pl = 0 := by
  by_cases h0 : pl = 0
  · right; exact h0
  · left
    unfold allPieces
    by_cases hr : (splitChunks pl s).2 = []
    · rw [if_pos hr]
      have := splitChunks_join s.length pl s (Nat.le_refl _)
      rw [hr] at this
      simpa using this
    · rw [if_neg hr]
      have := splitChunks_join s.length pl s (Nat.le_refl _)
      simpa [List.flatten_append] using this

theorem allPieces_dropLast_length (pl : Nat) (s : List Nat) :
    ∀ b ∈ (allPieces pl s).dropLast, b.length = pl := by
  intro b hb
  unfold allPieces at hb
  by_cases hr : (splitChunks pl s).2 = []
  · rw [if_pos hr] at hb
    simp only [List.append_nil] at hb
    exact splitChunks_full_length s.length pl s (Nat.le_refl _) b (List.dropLast_subset _ hb)
  · rw [if_neg hr] at hb
    rw [List.dropLast_concat] at hb
    exact splitChunks_full_length s.length pl s (Nat.le_refl _) b hb

theorem allPieces_mem_bounds (pl : Nat) (s : List Nat) (hpl : 1 ≤ pl) :
    ∀ b ∈ allPieces pl s, b ≠ [] ∧ b.length ≤ pl := by
  intro b hb
  unfold allPieces at hb
  rcases List.mem_append.mp hb with h | h
  · have hlen := splitChunks_full_length s.length pl s (Nat.le_refl _) b h
    constructor
    · intro hnil
      rw [hnil] at hlen
      simp at hlen
      omega
    · omega
  · by_cases hr : (splitChunks pl s).2 = []
    · rw [if_pos hr] at h
      simp at h
    · rw [if_neg hr] at h
      have hb2 : b = (splitChunks pl s).2 := by simpa using h
      subst hb2
      have := splitChunks_rem_short pl hpl s.length s (Nat.le_refl _)
      exact ⟨hr, by omega⟩

theorem allPieces_length_gt (pl : Nat) (hpl : 1 ≤ pl) :
    ∀ (i : Nat) (s : List Nat), i * pl < s.length → i < (allPieces pl s).length := by
  intro i
  induction i with
  | zero =>
    intro s hs
    rw [allPieces_step pl s hpl]
    by_cases hc : s.length < pl
    · rw [if_pos hc]
      have hne : s ≠ [] := by
        intro h; subst h; simp at hs
      rw [if_neg hne]
      simp
    · rw [if_neg hc]
      simp
  | succ i ih =>
    intro s hs
    rw [Nat.succ_mul] at hs
    rw [allPieces_step pl s hpl]
    have hc : ¬(s.length < pl) := by omega
    rw [if_neg hc]
    simp only [List.length_cons]
    have hd : i * pl < (s.drop pl).length := by
      rw [List.length_drop]
      omega
    have := ih (s.drop pl) hd
    omega

theorem allPieces_getD (pl : Nat) (hpl : 1 ≤ pl) :
    ∀ (i : Nat) (s : List Nat), i < (allPieces pl s).length →
      (allPieces pl s).getD i [] = (s.drop (i * pl)).take pl := by
  intro i
  induction i with
  | zero =>
    intro s hi
    rw [allPieces_step pl s hpl] at hi ⊢
    by_cases hc : s.length < pl
    · rw [if_pos hc] at hi ⊢
      by_cases hs : s = []
      · rw [if_pos hs] at hi
        simp at hi
      · rw [if_neg hs]
        simp
        omega
    · rw [if_neg hc] at hi ⊢
      simp
  | succ i ih =>
    intro s hi
    rw [allPieces_step pl s hpl] at hi ⊢
    by_cases hc : s.length < pl
    · rw [if_pos hc] at hi
      by_cases hs : s = []
      · rw [if_pos hs] at hi
        simp at hi
      · rw [if_neg hs] at hi
        simp at hi
    · rw [if_neg hc] at hi ⊢
      simp only [List.length_cons] at hi
      have hi2 : i < (allPieces pl (s.drop pl)).length := by omega
      simp only [List.getD_cons_succ]
      rw [ih (s.drop pl) hi2, List.drop_drop]
      have harith : pl + i * pl = (i + 1) * pl := by ring
      rw [harith]

/-- Two equally long sequences that agree outside the byte range of piece
i have identical pieces at every other index. -/
theorem piece_eq_of_agree (pl i j : Nat) (s s2 : List Nat)
    (hlen : s2.length = s.length)
    (hagree : ∀ k, k < s.length → (k < i * pl ∨ (i + 1) * pl ≤ k) →
      s2.getD k 0 = s.getD k 0)
    (hne : j ≠ i) :
    (s2.drop (j * pl)).take pl = (s.drop (j * pl)).take pl := by
  apply List.ext_getElem
  · simp [hlen]
  · intro m h1 h2
    have hm1 : m < pl := by
      have := List.length_take_le pl (s2.drop (j * pl))
      simp at h1
      omega
    have hm2 : j * pl + m < s.length := by
      simp at h2
      omega
    have hout : j * pl + m < i * pl ∨ (i + 1) * pl ≤ j * pl + m := by
      rcases Nat.lt_or_ge j i with hj | hj
      · left
        have h1 : (j + 1) * pl ≤ i * pl := Nat.mul_le_mul_right pl hj
        have h2 : (j + 1) * pl = j * pl + pl := by ring
        omega
      · right
        have hj2 : i + 1 ≤ j := by omega
        have h1 : (i + 1) * pl ≤ j * pl := Nat.mul_le_mul_right pl hj2
        omega
    have := hagree (j * pl + m) hm2 hout
    rw [List.getD_eq_getElem s2 0 (by omega), List.getD_eq_getElem s 0 (by omega)] at this
    simp only [List.getElem_take, List.getElem_drop]
    simpa using this

/-- The comparison loop succeeds on a buffer stream exactly when every
digest within the zip range matches. -/
theorem verifyLoop_passed_iff (digest : List Nat → List Nat) :
    ∀ (hs : List (List Nat)) (B : List (List Nat)) (i : Nat),
      verifyLoop digest hs (B.map PieceYield.buf) i = .passed ↔
        ∀ j, j < hs.length → j < B.length → digest (B.getD j []) = hs.getD j [] := by
  intro hs
  induction hs with
  | nil =>
    intro B i
    simp [verifyLoop]
  | cons h hs ih =>
    intro B i
    match B with
    | [] =>
      simp [verifyLoop]
    | b :: B =>
      simp only [List.map_cons, verifyLoop]
      by_cases hd : digest b = h
      · rw [if_pos hd, ih B (i + 1)]
        constructor
        · intro hall j hj1 hj2
          match j with
          | 0 => simpa using hd
          | j + 1 =>
            simp only [List.getD_cons_succ]
            exact hall j (by simpa using hj1) (by simpa using hj2)
        · intro hall j hj1 hj2
          have := hall (j + 1) (by simpa using hj1) (by simpa using hj2)
          simpa using this
      · rw [if_neg hd]
        constructor
        · intro hcontra
          exact absurd hcontra (by simp)
        · intro hall
          have := hall 0 (by simp) (by simp)
          simp at this
          exact absurd this hd

/-- The comparison loop stops at the first mismatching index. -/
theorem verifyLoop_first_fail (digest : List Nat → List Nat) :
    ∀ (j0 : Nat) (hs : List (List Nat)) (B : List (List Nat)) (i : Nat),
      j0 < hs.length → j0 < B.length →
      (∀ j, j < j0 → digest (B.getD j []) = hs.getD j []) →
      digest (B.getD j0 []) ≠ hs.getD j0 [] →
      verifyLoop digest hs (B.map PieceYield.buf) i = .failMismatch (i + j0) := by
  intro j0
  induction j0 with
  | zero =>
    intro hs B i hh hb hpre hmis
    match hs, B with
    | h :: hs, b :: B =>
      simp only [List.map_cons, verifyLoop]
      rw [if_neg (by simpa using hmis)]
      simp
  | succ j0 ih =>
    intro hs B i hh hb hpre hmis
    match hs, B with
    | h :: hs, b :: B =>
      simp only [List.map_cons, verifyLoop]
      have h0 : digest b = h := by
        have := hpre 0 (Nat.succ_pos _)
        simpa using this
      rw [if_pos h0]
      have := ih hs B (i + 1) (by simpa using hh) (by simpa using hb)
        (fun j hj => by
          have := hpre (j + 1) (by omega)
          simpa using this)
        (by simpa using hmis)
      rw [this]
      congr 1
      omega

instance {ε α : Type} [DecidableEq ε] [DecidableEq α] : DecidableEq (Except ε α) := fun a b =>
  match a, b with
  | .ok x, .ok y =>
    if h : x = y then isTrue (by rw [h]) else isFalse (by intro hc; cases hc; exact h rfl)
  | .error x, .error y =>
    if h : x = y then isTrue (by rw [h]) else isFalse (by intro hc; cases hc; exact h rfl)
  | .ok _, .error _ => isFalse (by intro hc; cases hc)
  | .error _, .ok _ => isFalse (by intro hc; cases hc)

/-- A filesystem whose torrent data directory exists but whose single
listed file is absent. -/
def fsMissing : FS := ⟨[], ["/d/t"]⟩

/-- A two-piece torrent over one listed file of five bytes. -/
def tMissing : TorrentInfo := ⟨"t", 2, List.replicate 20 0, some [⟨["a"], 5⟩]⟩

/-- C1: the spec demands that a file that cannot be opened or sized fail
verification with a dedicated missing-file error carrying the path.  The
source instead yields a None placeholder from the generator; hashing it
raises TypeError, reported as the generic VerificationError with the
constant message about being unable to hash a piece, which carries no
path, and no missing-file error class exists in the code.  This theorem
evaluates the embedding at the failing input: the listed file is absent,
and verification fails with the unable-to-hash VerificationError (in
particular not with the digest-mismatch report). -/
theorem C1_missing_file_generic_error :
    fsMissing.read (pathJoin (pathJoin "/d" tMissing.name) "a") = none ∧
    verify sumDigest fsMissing tMissing "/d" = .error .verificationUnableToHash ∧
    verify sumDigest fsMissing tMissing "/d" ≠ .error .verificationHashMismatch := by
  decide

/-- A filesystem holding a single three-byte file of the torrent below. -/
def fsShort : FS := ⟨[("/d/t/a", [1, 2, 3])], ["/d/t"]⟩

/-- A torrent whose metadata stores two 20-byte digests while the on-disk
content streams as a single short piece matching the first digest. -/
def tShort : TorrentInfo :=
  ⟨"t", 256, sumDigest [1, 2, 3] ++ 99 :: List.replicate 19 0, some [⟨["a"], 3⟩]⟩

/-- C5: the claim requires a FormatError whenever the number of produced
pieces differs from the number of stored digests.  The source has no such
check: the comparison zip silently truncates at the shorter sequence, so
content with fewer pieces than stored digests verifies successfully when
the compared prefix matches.  Here two digests are stored, one piece is
produced, and verification succeeds. -/
theorem C5_count_mismatch_verifies :
    verify sumDigest fsShort tShort "/d" = .ok () ∧
    (chunksList tShort.pieces 20).length = 2 ∧
    (torrentYields fsShort tShort "/d").length = 1 := by
  decide

/-- A filesystem holding the four-byte torrent content 1 2 3 4. -/
def fsTwoPiece : FS := ⟨[("/d/t/a", [1, 2, 3, 4])], ["/d/t"]⟩

/-- The same metadata with the stored digest for piece 0 corrupted. -/
def tBadPiece0 : TorrentInfo :=
  ⟨"t", 2, (99 :: List.replicate 19 0) ++ 7 :: List.replicate 19 0, some [⟨["a"], 4⟩]⟩

/-- The same metadata with the stored digest for piece 1 corrupted. -/
def tBadPiece1 : TorrentInfo :=
  ⟨"t", 2, (3 :: List.replicate 19 0) ++ 99 :: List.replicate 19 0, some [⟨["a"], 4⟩]⟩

/-- C3 counterexample: the claim says a digest mismatch is reported with an
IntegrityError carrying the mismatching piece index.  The source raises a
VerificationError with a constant message: two verifications that stop at
different piece indices (0 and 1, as the instrumented loop outcome shows)
produce identical errors, so the raised error carries no piece index. -/
theorem C3_counterexample_no_index :
    verifyCore sumDigest fsTwoPiece tBadPiece0 "/d" = .failMismatch 0 ∧
    verifyCore sumDigest fsTwoPiece tBadPiece1 "/d" = .failMismatch 1 ∧
    verify sumDigest fsTwoPiece tBadPiece0 "/d" = verify sumDigest fsTwoPiece tBadPiece1 "/d" := by
  decide

/-- C4: over any ordered file list whose files are all present and any
positive piece length, the streamer yields exactly the pieces of the
concatenated contents: every yielded buffer except the last has length
exactly pieceLength, every yielded buffer is nonempty and at most
pieceLength long, the final partial buffer is never dropped, and the
concatenation of the yields equals the concatenation of the listed files'
contents in listed order. -/
theorem C4_stream_is_exact_chunking (fs : FS) (filenames : List String) (basepath : String)
    (pl : Nat) (cs : List (List Nat)) (hpl : 1 ≤ pl)
    (hpresent : filenames.map (fun nm => fs.read (pathJoin basepath nm)) = cs.map some) :
    getTorrentPieces fs filenames basepath pl = (allPieces pl cs.flatten).map PieceYield.buf ∧
    (∀ b ∈ (allPieces pl cs.flatten).dropLast, b.length = pl) ∧
    (allPieces pl cs.flatten).flatten = cs.flatten ∧
    ∀ b ∈ allPieces pl cs.flatten, b ≠ [] ∧ b.length ≤ pl := by
  refine ⟨?_, allPieces_dropLast_length pl cs.flatten, ?_,
    allPieces_mem_bounds pl cs.flatten hpl⟩
  · unfold getTorrentPieces
    rw [hpresent, genGo_spec pl cs none [] pl hpl (by simp)]
    simp
  · rcases allPieces_join pl cs.flatten with h | h
    · exact h
    · omega

/-- A small filesystem with two files under one base directory. -/
def fsTwoFiles : FS := ⟨[("/b/x", [1, 2, 3]), ("/b/y", [4, 5])], ["/b"]⟩

/-- Witness for C4 at a concrete input: two files of lengths 3 and 2 with
piece length 2 stream as two full pieces and a final short piece, the third
piece spanning the file boundary. -/
theorem C4_witness :
    getTorrentPieces fsTwoFiles ["x", "y"] "/b" 2 =
      (allPieces 2 ([[1, 2, 3], [4, 5]] : List (List Nat)).flatten).map PieceYield.buf ∧
    getTorrentPieces fsTwoFiles ["x", "y"] "/b" 2 = [.buf [1, 2], .buf [3, 4], .buf [5]] :=
  ⟨(C4_stream_is_exact_chunking fsTwoFiles ["x", "y"] "/b" 2 [[1, 2, 3], [4, 5]]
      (by decide) (by decide)).1,
    by decide⟩

/-- C8: verifying a single-file torrent and the equivalent one-element
multi-file torrent with identical stored digests yields the same outcome.
The single-file branch hands the already joined path rootPath/name back to
the streamer, which joins it against rootPath once more; the first
hypothesis states that this second join is the identity, which holds
whenever rootPath (or the name itself, as in the repository's tests) is
absolute. -/
theorem C8_single_vs_multi_file (digest : List Nat → List Nat) (fs : FS)
    (origPath n1 n2 seg : String) (flen : Nat) (c : List Nat) (flat : List Nat) (pl : Nat)
    (habs : pathJoin origPath (pathJoin origPath n1) = pathJoin origPath n1)
    (hread1 : fs.read (pathJoin origPath n1) = some c)
    (hdir2 : fs.isDir (pathJoin origPath n2) = true)
    (hread2 : fs.read (pathJoin (pathJoin origPath n2) seg) = some c) :
    verify digest fs ⟨n1, pl, flat, none⟩ origPath =
      verify digest fs ⟨n2, pl, flat, some [⟨[seg], flen⟩]⟩ origPath := by
  unfold verify verifyCore torrentYields torrentFilenamesBase getTorrentPieces
  simp only [List.map_cons, List.map_nil]
  have hseg : String.intercalate "/" [seg] = seg := rfl
  rw [habs, hread1, hdir2, hseg, hread2]
  simp [hread1]

/-- A filesystem carrying the same two-byte content once as a straight file
and once inside a torrent directory. -/
def fsBoth : FS := ⟨[("/d/a1", [1, 2]), ("/d/t2/b", [1, 2])], ["/d/t2"]⟩

/-- Witness for C8 at a concrete input with an absolute root. -/
theorem C8_witness :
    verify sumDigest fsBoth ⟨"a1", 2, sumDigest [1, 2], none⟩ "/d" =
      verify sumDigest fsBoth ⟨"t2", 2, sumDigest [1, 2], some [⟨["b"], 2⟩]⟩ "/d" :=
  C8_single_vs_multi_file sumDigest fsBoth "/d" "a1" "t2" "b" 2 [1, 2] (sumDigest [1, 2]) 2
    (by decide) (by decide) (by decide) (by decide)

/-- The verifier's piece stream over a multi-file torrent whose files all
resolve to present contents is the chunking of the concatenation. -/
theorem torrentYields_of_present (fs : FS) (t : TorrentInfo) (origPath : String)
    (fl : List FileEntry) (cs : List (List Nat))
    (hfl : t.files = some fl) (hpl : 1 ≤ t.pieceLength)
    (hres : fl.map (fun fe => fs.read (pathJoin (pathJoin origPath t.name)
      (String.intercalate "/" fe.path))) = cs.map some) :
    torrentYields fs t origPath = (allPieces t.pieceLength cs.flatten).map PieceYield.buf := by
  unfold torrentYields torrentFilenamesBase getTorrentPieces
  rw [hfl]
  simp only [List.map_map, Function.comp_def]
  rw [hres, genGo_spec t.pieceLength cs none [] t.pieceLength hpl (by simp)]
  simp

/-- A successful verification run means the comparison loop passed. -/
theorem verifyCore_passed_of_ok (digest : List Nat → List Nat) (fs : FS) (t : TorrentInfo)
    (origPath : String) (hok : verify digest fs t origPath = .ok ()) :
    verifyCore digest fs t origPath = .passed := by
  unfold verify at hok
  rcases hcr : verifyCore digest fs t origPath with _ | j | j | j
  · rfl
  all_goals
    rw [hcr] at hok
    by_cases hc : (!fs.isDir (pathJoin origPath t.name)
        && !(fs.read (pathJoin origPath t.name)).isSome) = true
  all_goals first
    | (rw [if_pos hc] at hok; exact absurd hok (by simp))
    | (rw [if_neg hc] at hok; exact absurd hok (by simp))

/-- C3 amended: on content differing from a verified original only inside
the byte range of piece i and whose piece-i digest no longer matches, the
comparison loop stops exactly at index i with the digest-mismatch error;
no later piece influences the outcome.  The raised VerificationError
itself does not carry the index (see the counterexample), but the failing
piece is always i and never any other index. -/
theorem C3_amended_fails_at_piece (digest : List Nat → List Nat) (fs fs2 : FS)
    (t : TorrentInfo) (origPath : String) (fl : List FileEntry)
    (cs cs2 : List (List Nat)) (i : Nat)
    (hfl : t.files = some fl)
    (hpl : 1 ≤ t.pieceLength)
    (hdir2 : fs2.isDir (pathJoin origPath t.name) = true)
    (hres : fl.map (fun fe => fs.read (pathJoin (pathJoin origPath t.name)
      (String.intercalate "/" fe.path))) = cs.map some)
    (hres2 : fl.map (fun fe => fs2.read (pathJoin (pathJoin origPath t.name)
      (String.intercalate "/" fe.path))) = cs2.map some)
    (hlen : cs2.flatten.length = cs.flatten.length)
    (hagree : ∀ k, k < cs.flatten.length →
      (k < i * t.pieceLength ∨ (i + 1) * t.pieceLength ≤ k) →
      cs2.flatten.getD k 0 = cs.flatten.getD k 0)
    (hok : verify digest fs t origPath = .ok ())
    (hhi : i < (chunksList t.pieces 20).length)
    (hpi : i * t.pieceLength < cs.flatten.length)
    (hmis : digest ((cs2.flatten.drop (i * t.pieceLength)).take t.pieceLength) ≠
      (chunksList t.pieces 20).getD i []) :
    verifyCore digest fs2 t origPath = .failMismatch i ∧
    verify digest fs2 t origPath = .error .verificationHashMismatch := by
  have hy1 := torrentYields_of_present fs t origPath fl cs hfl hpl hres
  have hy2 := torrentYields_of_present fs2 t origPath fl cs2 hfl hpl hres2
  have hpass : verifyLoop digest (chunksList t.pieces 20)
      ((allPieces t.pieceLength cs.flatten).map PieceYield.buf) 0 = .passed := by
    have := verifyCore_passed_of_ok digest fs t origPath hok
    unfold verifyCore at this
    rw [hy1] at this
    exact this
  have hmatch := (verifyLoop_passed_iff digest (chunksList t.pieces 20)
    (allPieces t.pieceLength cs.flatten) 0).mp hpass
  have hpi2 : i * t.pieceLength < cs2.flatten.length := by omega
  have hB2i : i < (allPieces t.pieceLength cs2.flatten).length :=
    allPieces_length_gt t.pieceLength hpl i cs2.flatten hpi2
  have hpre : ∀ j, j < i →
      digest ((allPieces t.pieceLength cs2.flatten).getD j []) =
        (chunksList t.pieces 20).getD j [] := by
    intro j hj
    have hjpl : j * t.pieceLength < cs.flatten.length := by
      have : j * t.pieceLength ≤ i * t.pieceLength := Nat.mul_le_mul_right _ (Nat.le_of_lt hj)
      omega
    have hjpl2 : j * t.pieceLength < cs2.flatten.length := by omega
    have hBj : j < (allPieces t.pieceLength cs.flatten).length :=
      allPieces_length_gt t.pieceLength hpl j cs.flatten hjpl
    have hB2j : j < (allPieces t.pieceLength cs2.flatten).length :=
      allPieces_length_gt t.pieceLength hpl j cs2.flatten hjpl2
    rw [allPieces_getD t.pieceLength hpl j cs2.flatten hB2j]
    rw [piece_eq_of_agree t.pieceLength i j cs.flatten cs2.flatten hlen hagree (by omega)]
    rw [← allPieces_getD t.pieceLength hpl j cs.flatten hBj]
    exact hmatch j (by omega) hBj
  have hmis2 : digest ((allPieces t.pieceLength cs2.flatten).getD i []) ≠
      (chunksList t.pieces 20).getD i [] := by
    rw [allPieces_getD t.pieceLength hpl i cs2.flatten hB2i]
    exact hmis
  have hfail := verifyLoop_first_fail digest i (chunksList t.pieces 20)
    (allPieces t.pieceLength cs2.flatten) 0 hhi hB2i hpre hmis2
  have hcore2 : verifyCore digest fs2 t origPath = .failMismatch i := by
    unfold verifyCore
    rw [hy2, hfail]
    simp
  refine ⟨hcore2, ?_⟩
  unfold verify
  simp [hcore2, hdir2]

/-- The two-piece metadata whose stored digests match the content
1 2 3 4 of fsTwoPiece under sumDigest. -/
def tGoodTwoPiece : TorrentInfo :=
  ⟨"t", 2, (3 :: List.replicate 19 0) ++ 7 :: List.replicate 19 0, some [⟨["a"], 4⟩]⟩

/-- The same content with byte offset 2 mutated, confined to piece index 1
which covers bytes 2 and 3. -/
def fsMutatedPiece1 : FS := ⟨[("/d/t/a", [1, 2, 9, 4])], ["/d/t"]⟩

/-- Witness for the amended C3: mutating byte 2 (inside piece 1) of a
verified two-piece torrent makes the loop stop at piece index 1 with the
digest-mismatch error. -/
theorem C3_amended_witness :
    verifyCore sumDigest fsMutatedPiece1 tGoodTwoPiece "/d" = .failMismatch 1 ∧
    verify sumDigest fsMutatedPiece1 tGoodTwoPiece "/d" = .error .verificationHashMismatch :=
  C3_amended_fails_at_piece sumDigest fsTwoPiece fsMutatedPiece1 tGoodTwoPiece "/d"
    [⟨["a"], 4⟩] [[1, 2, 3, 4]] [[1, 2, 9, 4]] 1
    rfl (by decide) (by decide) (by decide) (by decide) (by decide) (by decide)
    (by decide) (by decide) (by decide) (by decide)

/-- C2: the claim says the resume read windows always tile the byte range
from the resume offset to the remote size with lengths summing to exactly
that distance.  When the distance is an exact multiple of the maximum
packet size (32768 in the transport library), the source's
ceil-minus-one window count together with the modulo-sized final window
loses one full window: resuming at offset 32768 of a 65536-byte file
issues a single empty read window, transferring none of the remaining
32768 bytes. -/
theorem C2_window_gap_on_exact_multiple :
    readTuples 32768 32768 65536 = [(32768, 0)] ∧
    windowLengthSum 32768 32768 65536 = 0 ∧
    65536 - 32768 = 32768 ∧ (0 : Nat) ≠ 32768 ∧
    windowLengthSum 32768 32768 65537 = 32769 := by
  decide

/-- C6 counterexample: the claim says the resume path is entered only when
the local file is strictly smaller than the remote one.  A local file of
100 bytes against a remote file of 50 bytes also enters the resume branch:
the source only compares sizes for inequality. -/
theorem C6_counterexample_resume_on_larger_local :
    mirrorDecision (some 100) 50 true = .resumeAt 100 ∧ ¬(100 < 50) := by
  decide

/-- C6 amended: the full per-file decision.  Equal sizes skip; a resume at
the local size is entered exactly when resume is enabled and the local file
exists with a nonzero size different from (not necessarily smaller than)
the remote size; every other case, including a missing local destination
regardless of the resume flag, downloads afresh from offset zero. -/
theorem mirrorDecision_some_eq (ls remoteSize : Nat) (resume : Bool) :
    mirrorDecision (some ls) remoteSize resume =
      if ls = remoteSize then .skip
      else if ls ≠ 0 ∧ resume = true then .resumeAt ls
      else .fresh := rfl

theorem C6_amended_decision :
    (∀ (remoteSize : Nat) (resume : Bool), mirrorDecision none remoteSize resume = .fresh) ∧
    (∀ (ls remoteSize : Nat) (resume : Bool),
      mirrorDecision (some ls) remoteSize resume = .skip ↔ ls = remoteSize) ∧
    (∀ (ls remoteSize o : Nat) (resume : Bool),
      mirrorDecision (some ls) remoteSize resume = .resumeAt o ↔
        o = ls ∧ ls ≠ remoteSize ∧ ls ≠ 0 ∧ resume = true) ∧
    (∀ (ls remoteSize : Nat) (resume : Bool),
      mirrorDecision (some ls) remoteSize resume = .fresh ↔
        ls ≠ remoteSize ∧ (ls = 0 ∨ resume = false)) := by
  refine ⟨fun _ _ => rfl, ?_, ?_, ?_⟩
  · intro ls remoteSize resume
    rw [mirrorDecision_some_eq]
    by_cases h : ls = remoteSize
    · simp [h]
    · rw [if_neg h]
      by_cases h2 : ls ≠ 0 ∧ resume = true
      · rw [if_pos h2]; simp [h]
      · rw [if_neg h2]; simp [h]
  · intro ls remoteSize o resume
    rw [mirrorDecision_some_eq]
    by_cases h : ls = remoteSize
    · rw [if_pos h]; simp [h]
    · rw [if_neg h]
      by_cases h2 : ls ≠ 0 ∧ resume = true
      · rw [if_pos h2]
        simp [h, h2.1, h2.2]
        constructor
        · intro ho; omega
        · intro ho; omega
      · rw [if_neg h2]
        simp [h]
        intro ho h3
        cases hr : resume
        · rfl
        · exact absurd ⟨h3, hr⟩ h2
  · intro ls remoteSize resume
    rw [mirrorDecision_some_eq]
    by_cases h : ls = remoteSize
    · rw [if_pos h]; simp [h]
    · rw [if_neg h]
      by_cases h2 : ls ≠ 0 ∧ resume = true
      · rw [if_pos h2]
        simp [h, h2.1, h2.2]
      · rw [if_neg h2]
        simp [h]
        rcases resume with _ | _
        · simp
        · simp at h2 ⊢
          exact h2

/-- Witness for the amended C6: a concrete instance of each branch. -/
theorem C6_amended_witness :
    mirrorDecision none 7 true = .fresh ∧
    (mirrorDecision (some 5) 5 false = .skip ↔ (5 : Nat) = 5) ∧
    (mirrorDecision (some 3) 9 true = .resumeAt 3 ↔
      (3 : Nat) = 3 ∧ (3 : Nat) ≠ 9 ∧ (3 : Nat) ≠ 0 ∧ true = true) ∧
    (mirrorDecision (some 0) 9 true = .fresh ↔ (0 : Nat) ≠ 9 ∧ ((0 : Nat) = 0 ∨ true = false)) :=
  ⟨C6_amended_decision.1 7 true, C6_amended_decision.2.1 5 5 false,
    C6_amended_decision.2.2.1 3 9 3 true, C6_amended_decision.2.2.2 0 9 true⟩

/-- C7: the claim says the value mirror returns equals the number of files
actually transferred.  The resume branch's window loop reuses the Python
name n of the transferred-files counter, clobbering it: a run that
transfers exactly one file by resuming at offset 100 of a 98409-byte
remote file (three full windows, so the window loop leaves n at 2) returns
3 instead of 1. -/
theorem C7_return_is_not_transfer_count :
    mirrorCount 32768 true [⟨some 100, 98409⟩] = 3 ∧
    transferredCount true [⟨some 100, 98409⟩] = 1 ∧ (3 : Nat) ≠ 1 := by
  decide

/-- No path already cached when a run starts is ever attempted during that
run. -/
theorem dirSteps_no_attempt_of_mem :
    ∀ (ps cache : List String) (p : String), p ∈ cache → p ∉ (dirSteps cache ps).1 := by
  intro ps
  induction ps with
  | nil => intro cache p hp; simp [dirSteps]
  | cons q rest ih =>
    intro cache p hp
    simp only [dirSteps]
    by_cases hq : q ∈ cache
    · rw [if_pos hq]
      exact ih cache p hp
    · rw [if_neg hq]
      simp only [List.mem_cons, not_or]
      constructor
      · intro hpq
        subst hpq
        exact hq hp
      · exact ih (cache ++ [q]) p (List.mem_append_left _ hp)

/-- C9 counterexample: the claim says the directory cache is empty when a
mirror run starts.  mirror never resets the class-level cache, so a second
run on the same engine starts with the first run's final cache: after a
first run that created directory d, a second run needing d again starts
with the nonempty cache and attempts no creation at all. -/
theorem C9_counterexample_cache_not_reset :
    (dirSteps [] ["d"]).1 = ["d"] ∧
    (dirSteps [] ["d"]).2 = ["d"] ∧
    (dirSteps ["d"] ["d"]).1 = [] ∧
    (["d"] : List String) ≠ [] := by
  decide

/-- C9 amended: the cache is a class-level list that persists across runs
(mirror never clears it; the final cache is the incoming cache extended by
exactly the paths attempted this run), and within one run each destination
directory path has creation attempted at most once. -/
theorem C9_amended_cache_behavior :
    ∀ (cache ps : List String) (p : String),
      (dirSteps cache ps).1.count p ≤ 1 ∧
      (dirSteps cache ps).2 = cache ++ (dirSteps cache ps).1 := by
  intro cache ps p
  induction ps generalizing cache with
  | nil => simp [dirSteps]
  | cons q rest ih =>
    simp only [dirSteps]
    by_cases hq : q ∈ cache
    · rw [if_pos hq]
      exact ih cache
    · rw [if_neg hq]
      constructor
      · by_cases hpq : p = q
        · subst hpq
          have hnot : p ∉ (dirSteps (cache ++ [p]) rest).1 :=
            dirSteps_no_attempt_of_mem rest (cache ++ [p]) p (by simp)
          simp [List.count_cons_self, List.count_eq_zero.mpr hnot]
        · rw [List.count_cons_of_ne hpq]
          exact (ih (cache ++ [q])).1
      · have h2 := (ih (cache ++ [q])).2
        simp only [h2]
        simp

/-- C10: the recursive lister decides directoryhood by the owner permission
mask alone and never yields an entry whose owner bits are all set (a
regular file with mode bits 0o700 raises on the attempted descent and is
skipped, so it is never yielded); independently, mirror's loop skips any
enumerated entry whose owner bits are all set.  Hence a remote regular
file of mode 0o700 is never mirrored as a file. -/
theorem C10_lister_owner_mask :
    (∀ (fuel : Nat) (path : String) (entries : List (String × RNode)) (p : String) (a : RAttr),
      (p, a) ∈ listRecurse fuel path entries → a.mode &&& 0o700 ≠ 0o700) ∧
    (∀ mode : Nat, mode &&& 0o700 = 0o700 → mirrorSkips mode = true) := by
  constructor
  · intro fuel
    induction fuel with
    | zero => intro path entries p a h; simp [listRecurse] at h
    | succ fuel ih =>
      intro path entries p a hmem
      simp only [listRecurse] at hmem
      rw [List.mem_flatMap] at hmem
      obtain ⟨⟨nm, node⟩, he, hin⟩ := hmem
      cases node with
      | rfile a2 =>
        by_cases hm : ((RNode.rfile a2).attrs.mode &&& 0o700 == 0o700) = true
        · rw [if_pos hm] at hin
          simp at hin
        · rw [if_neg hm] at hin
          simp only [List.mem_singleton, Prod.mk.injEq] at hin
          obtain ⟨_, ha⟩ := hin
          subst ha
          simpa [RNode.attrs] using hm
      | rdir a2 children =>
        by_cases hm : ((RNode.rdir a2 children).attrs.mode &&& 0o700 == 0o700) = true
        · rw [if_pos hm] at hin
          exact ih (pathJoin path nm) children p a hin
        · rw [if_neg hm] at hin
          simp only [List.mem_singleton, Prod.mk.injEq] at hin
          obtain ⟨_, ha⟩ := hin
          subst ha
          simpa [RNode.attrs] using hm
  · intro mode h
    simp [mirrorSkips, h]

/-- A remote tree with an ordinary file, a regular file carrying mode
0o700, and a mode-0o700 directory with one child. -/
def remoteTreeW : List (String × RNode) :=
  [("f", .rfile ⟨0o644, 3, 0, 0⟩),
   ("x", .rfile ⟨0o700, 3, 0, 0⟩),
   ("sub", .rdir ⟨0o700, 0, 0, 0⟩ [("g", .rfile ⟨0o600, 1, 0, 0⟩)])]

/-- Witness for C10: on the concrete tree the lister yields exactly the two
ordinary files (the mode-0o700 regular file x is never yielded), the
yielded attributes fail the owner mask, and the mirror guard skips mode
0o700. -/
theorem C10_witness :
    listRecurse 2 "." remoteTreeW =
      [("./f", ⟨0o644, 3, 0, 0⟩), ("./sub/g", ⟨0o600, 1, 0, 0⟩)] ∧
    (("./f", (⟨0o644, 3, 0, 0⟩ : RAttr)) ∈ listRecurse 2 "." remoteTreeW) ∧
    (⟨0o644, 3, 0, 0⟩ : RAttr).mode &&& 0o700 ≠ 0o700 ∧
    mirrorSkips 0o700 = true :=
  ⟨by decide, by decide,
    C10_lister_owner_mask.1 2 "." remoteTreeW "./f" ⟨0o644, 3, 0, 0⟩ (by decide),
    C10_lister_owner_mask.2 0o700 (by decide)⟩

end XirvikTools
